import Mathlib

/-!
Shallow embedding of `src/backend/index.js` (anupammaurya6767/HCL-hack):
an Express service answering fastest-route (sum of edge times) and
cheapest-route (sum of node charges) queries over a directed graph of banks,
using a lazy-deletion Dijkstra with a predecessor map and path reconstruction.

Modelling conventions:
* JS numbers (charges via `parseFloat`, times via `parseInt`) are modelled as `ℚ`.
* JS objects used as maps (`banks`, `graph`, `distances`, `predecessors`) are
  association lists with first-match lookup and in-place update (JS keys are
  unique, so first-match agrees with JS lookup).
* The `heap` priority queue (comparator `a.distance - b.distance`) is modelled
  by popping the first entry of minimal distance; tie order among equal
  distances is unspecified by the package, so one deterministic choice is made.
* The `while` loops are fuel-indexed: a search returns `none` when the fuel is
  exhausted (the loop has not finished after that many iterations),
  `some none` for the JS `null` ("no path"), and `some (some r)` for a result.
* In `dijkstraCheapest`, `banks[x]` can be `undefined` and arithmetic on it
  yields `NaN`; its distance values are therefore `Option ℚ` with `none`
  standing for `undefined`/`NaN` (all `<`/`>` comparisons involving it are
  false, `+` propagates it, and it is falsy in `x || Infinity`).
-/

namespace HCLHack

/-- One adjacency entry `{ to, time }` as pushed by `loadDataToMemory`
(the JS field `to` is a reserved token in Lean, hence `toBIC`). -/
structure Edge where
  toBIC : String
  time : ℚ
deriving DecidableEq, Repr

/-- One row of `links.csv` as inserted into the `links` table. -/
structure LinkRow where
  FromBIC : String
  ToBIC : String
  TimeTakenInMinutes : ℚ
deriving DecidableEq, Repr

/-- The two in-memory structures built at startup: `banks` (BIC → charge)
and `graph` (BIC → outgoing edges). -/
structure Graph where
  banks : List (String × ℚ)
  links : List (String × List Edge)
deriving DecidableEq, Repr

/-- First-match association-list lookup, the JS `obj[key]` read
(`none` = `undefined`). -/
def lookupL {α : Type} : List (String × α) → String → Option α
  | [], _ => none
  | (k, v) :: rest, x => if k = x then some v else lookupL rest x

/-- JS `obj[key] = v`: replace in place if the key exists, else append. -/
def updateL {α : Type} : List (String × α) → String → α → List (String × α)
  | [], x, v => [(x, v)]
  | (k, w) :: rest, x, v =>
      if k = x then (x, v) :: rest else (k, w) :: updateL rest x v

/-- `graph[node] || []` (line 94 / line 130). -/
def adj (g : Graph) (x : String) : List Edge :=
  (lookupL g.links x).getD []

/-- One step of the `loadDataToMemory` fold over link rows (lines 72–75):
`if (!graph[FromBIC]) graph[FromBIC] = []; graph[FromBIC].push({to, time})`. -/
def pushLink (acc : List (String × List Edge)) (r : LinkRow) :
    List (String × List Edge) :=
  match lookupL acc r.FromBIC with
  | none => updateL acc r.FromBIC [⟨r.ToBIC, r.TimeTakenInMinutes⟩]
  | some es => updateL acc r.FromBIC (es ++ [⟨r.ToBIC, r.TimeTakenInMinutes⟩])

/-- The adjacency list built from the `links` rows (lines 69–78). -/
def loadLinks (rows : List LinkRow) : List (String × List Edge) :=
  rows.foldl pushLink []

/-- `newDist < (rec || Infinity)` (line 96 / line 132): a recorded value that is
absent is `Infinity`; a recorded value of `0` is falsy in JS, so it is ALSO
replaced by `Infinity` — every candidate then passes the test. -/
def jsLtOrInf (newDist : ℚ) (rec : Option ℚ) : Bool :=
  match rec with
  | none => true
  | some v => if v = 0 then true else decide (newDist < v)

/-- `current.distance > distances[current.node]` (line 92): a comparison with
`undefined` is false in JS. -/
def jsGtQ (a : ℚ) (b : Option ℚ) : Bool :=
  match b with
  | some v => decide (v < a)
  | none => false

/-- A priority-queue entry `{ node, distance }` of `dijkstraFastest`. -/
structure FEntry where
  node : String
  distance : ℚ
deriving DecidableEq, Repr

/-- The mutable locals of `dijkstraFastest`: `distances`, `predecessors`, `pq`. -/
structure FState where
  distances : List (String × ℚ)
  predecessors : List (String × String)
  pq : List FEntry
deriving DecidableEq, Repr

/-- Pop an entry of minimal `distance` (the `heap` package's comparator is
`a.distance - b.distance`); among equal minima the earliest-pushed one is
taken, one legal resolution of the package's unspecified tie order. -/
def popMinF : List FEntry → Option (FEntry × List FEntry)
  | [] => none
  | e :: es =>
      match popMinF es with
      | none => some (e, [])
      | some (m, rest) =>
          if e.distance ≤ m.distance then some (e, es) else some (m, e :: rest)

/-- Lines 95–100: relax one outgoing edge of the popped node `cur` whose popped
distance is `cd`. -/
def relaxF (cd : ℚ) (cur : String) (e : Edge) (st : FState) : FState :=
  let newDist := cd + e.time
  if jsLtOrInf newDist (lookupL st.distances e.toBIC) then
    { distances := updateL st.distances e.toBIC newDist
      predecessors := updateL st.predecessors e.toBIC cur
      pq := st.pq ++ [⟨e.toBIC, newDist⟩] }
  else st

/-- The `for (let neighbor of graph[current.node] || [])` loop (line 94). -/
def relaxAllF (cd : ℚ) (cur : String) : List Edge → FState → FState
  | [], st => st
  | e :: es, st => relaxAllF cd cur es (relaxF cd cur e st)

/-- The `while (!pq.empty())` loop of `dijkstraFastest` (lines 89–102), fuel
counting iterations.  `none` = out of fuel, `some st` = loop finished (queue
empty, or `break` on popping `dst`). -/
def loopF (g : Graph) (dst : String) : ℕ → FState → Option FState
  | 0, st =>
      match popMinF st.pq with
      | none => some st
      | some _ => none
  | n + 1, st =>
      match popMinF st.pq with
      | none => some st
      | some (cur, rest) =>
          if cur.node = dst then some { st with pq := rest }
          else if jsGtQ cur.distance (lookupL st.distances cur.node) then
            loopF g dst n { st with pq := rest }
          else
            loopF g dst n
              (relaxAllF cur.distance cur.node (adj g cur.node) { st with pq := rest })

/-- Lines 106–113: walk `predecessors` backward from `dst` until `start`, then
append `start` and reverse.  JS reads `predecessors[current]` even when the
key is absent, getting `undefined`, and the next object read coerces that key
to the string `"undefined"`; the walk models that chain with the literal
string.  `none` = the `while` loop has not reached `start` within the fuel. -/
def walkPath (start : String) : ℕ → List (String × String) → String → List String → Option (List String)
  | 0, _, cur, path =>
      if cur = start then some ((path ++ [start]).reverse) else none
  | m + 1, preds, cur, path =>
      if cur = start then some ((path ++ [start]).reverse)
      else walkPath start m preds ((lookupL preds cur).getD "undefined") (path ++ [cur])

/-- The `{ path, time }` object returned by `dijkstraFastest` (line 114). -/
structure FResult where
  path : List String
  time : ℚ
deriving DecidableEq, Repr

/-- `dijkstraFastest(start, end)` (lines 82–115), fuel-indexed.  `none` = a
loop is still running after `fuel` steps; `some none` = the JS `null`
("no path", line 104); `some (some r)` = the returned `{ path, time }`. -/
def dijkstraFastest (fuel : ℕ) (g : Graph) (start dst : String) :
    Option (Option FResult) :=
  match loopF g dst fuel ⟨updateL [] start 0, [], [⟨start, 0⟩]⟩ with
  | none => none
  | some st =>
      match lookupL st.distances dst with
      | none => some none
      | some d =>
          match walkPath start fuel st.predecessors dst [] with
          | none => none
          | some p => some (some ⟨p, d⟩)

/-- `a + b` on JS numbers where either side may be `undefined`/`NaN`
(modelled by `none`): the result is then `NaN`. -/
def jsAdd (a b : Option ℚ) : Option ℚ :=
  match a, b with
  | some x, some y => some (x + y)
  | _, _ => none

/-- `newDist < (rec || Infinity)` (line 132) for `dijkstraCheapest`, where both
the candidate and the recorded value may be `NaN`/`undefined` (`none`): `NaN`
compares false with everything, and a recorded `undefined`, `NaN` or `0` is
falsy, turning the bound into `Infinity`. -/
def jsLtOrInfC (newDist : Option ℚ) (rec : Option (Option ℚ)) : Bool :=
  match newDist with
  | none => false
  | some nd =>
      match rec with
      | none => true
      | some none => true
      | some (some v) => if v = 0 then true else decide (nd < v)

/-- `current.distance > distances[current.node]` (line 128) on possibly-`NaN`
values: any comparison involving `NaN`/`undefined` is false. -/
def jsGtC (a : Option ℚ) (b : Option (Option ℚ)) : Bool :=
  match a, b with
  | some x, some (some y) => decide (y < x)
  | _, _ => false

/-- A priority-queue entry of `dijkstraCheapest`; the seeded distance
`banks[start]` may be `undefined` (`none`). -/
structure CEntry where
  node : String
  distance : Option ℚ
deriving DecidableEq, Repr

/-- The mutable locals of `dijkstraCheapest`. -/
structure CState where
  distances : List (String × Option ℚ)
  predecessors : List (String × String)
  pq : List CEntry
deriving DecidableEq, Repr

/-- `≤` used by the cheapest queue's pop.  A `none` (`NaN`) distance only ever
occurs as the sole seeded entry of the queue (a relaxation never pushes one,
since `NaN < x` is false), so its ordering is immaterial; it is treated as
minimal to make the comparison total. -/
def leC : Option ℚ → Option ℚ → Bool
  | none, _ => true
  | some _, none => false
  | some x, some y => decide (x ≤ y)

/-- Pop an entry of minimal `distance` from the cheapest queue, earliest-pushed
among equal minima (same tie-resolution note as `popMinF`). -/
def popMinC : List CEntry → Option (CEntry × List CEntry)
  | [] => none
  | e :: es =>
      match popMinC es with
      | none => some (e, [])
      | some (m, rest) =>
          if leC e.distance m.distance then some (e, es) else some (m, e :: rest)

/-- Lines 131–136: relax one outgoing edge for the cheapest search; the
candidate is `current.distance + banks[neighbor.to]`, which is `NaN` when the
target has no charge entry (and then never passes the `<` test). -/
def relaxC (banks : List (String × ℚ)) (cd : Option ℚ) (cur : String) (e : Edge)
    (st : CState) : CState :=
  let newDist := jsAdd cd (lookupL banks e.toBIC)
  if jsLtOrInfC newDist (lookupL st.distances e.toBIC) then
    { distances := updateL st.distances e.toBIC newDist
      predecessors := updateL st.predecessors e.toBIC cur
      pq := st.pq ++ [⟨e.toBIC, newDist⟩] }
  else st

/-- The `for (let neighbor of graph[current.node] || [])` loop (line 130). -/
def relaxAllC (banks : List (String × ℚ)) (cd : Option ℚ) (cur : String) :
    List Edge → CState → CState
  | [], st => st
  | e :: es, st => relaxAllC banks cd cur es (relaxC banks cd cur e st)

/-- The `while (!pq.empty())` loop of `dijkstraCheapest` (lines 125–138). -/
def loopC (g : Graph) (dst : String) : ℕ → CState → Option CState
  | 0, st =>
      match popMinC st.pq with
      | none => some st
      | some _ => none
  | n + 1, st =>
      match popMinC st.pq with
      | none => some st
      | some (cur, rest) =>
          if cur.node = dst then some { st with pq := rest }
          else if jsGtC cur.distance (lookupL st.distances cur.node) then
            loopC g dst n { st with pq := rest }
          else
            loopC g dst n
              (relaxAllC g.banks cur.distance cur.node (adj g cur.node) { st with pq := rest })

/-- The `{ path, cost }` object returned by `dijkstraCheapest` (line 150); the
cost is `undefined` (`none`) when the seeded `banks[start]` was. -/
structure CResult where
  path : List String
  cost : Option ℚ
deriving DecidableEq, Repr

/-- `dijkstraCheapest(start, end)` (lines 118–151), fuel-indexed, with the same
result convention as `dijkstraFastest`.  The seed is
`distances[start] = banks[start]` (line 122), even when that charge is absent. -/
def dijkstraCheapest (fuel : ℕ) (g : Graph) (start dst : String) :
    Option (Option CResult) :=
  match loopC g dst fuel
      ⟨updateL [] start (lookupL g.banks start), [], [⟨start, lookupL g.banks start⟩]⟩ with
  | none => none
  | some st =>
      match lookupL st.distances dst with
      | none => some none
      | some c =>
          match walkPath start fuel st.predecessors dst [] with
          | none => none
          | some p => some (some ⟨p, c⟩)

/-- JS truthiness of a looked-up charge (`banks[x]` in lines 156/170):
`undefined` and `0` are falsy, any other charge is truthy. -/
def truthy (v : Option ℚ) : Bool :=
  match v with
  | none => false
  | some c => decide (c ≠ 0)

/-- `banks[fromBank]` where the destructured request field may be missing
(`undefined`): JS coerces an `undefined` property key to the string
`"undefined"` before the object lookup. -/
def bodyLookup (g : Graph) (x : Option String) : Option ℚ :=
  lookupL g.banks (x.getD "undefined")

/-- The three response shapes the two endpoints can send: HTTP 400
`{error: 'Invalid bank BIC'}`, HTTP 404 `{error: 'No path found'}`, and the
200 payloads with the ` -> `-joined route string. -/
inductive ApiResponse where
  | invalidNode
  | noPathFound
  | okFastest (route : String) (time : ℚ)
  | okCheapest (route : String) (cost : Option ℚ)
deriving DecidableEq, Repr

/-- `POST /api/fastestroute` (lines 154–165): reject unless both `banks`
lookups are truthy, then run the engine; `null` becomes the 404.  The engine
receives the field's value, with a missing field coerced to `"undefined"` as
in `bodyLookup`. -/
def fastestrouteHandler (fuel : ℕ) (g : Graph) (fromBank toBank : Option String) :
    Option ApiResponse :=
  if truthy (bodyLookup g fromBank) && truthy (bodyLookup g toBank) then
    match dijkstraFastest fuel g (fromBank.getD "undefined") (toBank.getD "undefined") with
    | none => none
    | some none => some ApiResponse.noPathFound
    | some (some r) =>
        some (ApiResponse.okFastest (String.intercalate " -> " r.path) r.time)
  else some ApiResponse.invalidNode

/-- `POST /api/cheapestroute` (lines 168–179), same validation. -/
def cheapestrouteHandler (fuel : ℕ) (g : Graph) (fromBank toBank : Option String) :
    Option ApiResponse :=
  if truthy (bodyLookup g fromBank) && truthy (bodyLookup g toBank) then
    match dijkstraCheapest fuel g (fromBank.getD "undefined") (toBank.getD "undefined") with
    | none => none
    | some none => some ApiResponse.noPathFound
    | some (some r) =>
        some (ApiResponse.okCheapest (String.intercalate " -> " r.path) r.cost)
  else some ApiResponse.invalidNode

/-!  Specification-side notions used to state the claims: routes of the
directed graph, the spec's node set, and the time-erased adjacency list. -/

/-- Whether the adjacency list has some edge from `a` to `b`. -/
def edgeToB (g : Graph) (a b : String) : Bool :=
  (adj g a).any fun e => e.toBIC = b

/-- Whether consecutive elements of the list are joined by edges. -/
def chainB (g : Graph) : List String → Bool
  | [] => true
  | [_] => true
  | a :: b :: rest => edgeToB g a b && chainB g (b :: rest)

/-- A directed route of `g` from `s` to `t`: a nonempty node list starting at
`s`, ending at `t`, each consecutive pair joined by an edge. -/
def isRouteList (g : Graph) (s t : String) (p : List String) : Bool :=
  decide (p.head? = some s) && decide (p.getLast? = some t) && chainB g p

/-- `t` is reachable from `s` in `g` by some directed route. -/
def Reach (g : Graph) (s t : String) : Prop :=
  ∃ p, isRouteList g s t p = true

/-- Modelled from the spec (§3): the node set is "the union of all charge
entries and all edge endpoints".  Used only to STATE membership in the spec's
Graph Store; the code has no such notion. -/
def specNodeSet (g : Graph) : List String :=
  g.banks.map Prod.fst ++ g.links.map Prod.fst ++
    g.links.flatMap fun pr => pr.2.map Edge.toBIC

/-- The adjacency list with every edge's `time` erased; two graphs with the
same `stripTimes` image have the same edges up to their time values. -/
def stripTimes (links : List (String × List Edge)) : List (String × List String) :=
  links.map fun pr => (pr.1, pr.2.map Edge.toBIC)

/-!  Concrete graphs used by the claim theorems.  All charges and times are
non-negative, as the spec's data model requires. -/

/-- Two parallel edges `A → B` with times `0` and `7`; both nodes charged. -/
def gPar : Graph := ⟨[("A", 1), ("B", 1)], [("A", [⟨"B", 0⟩, ⟨"B", 7⟩])]⟩

/-- A zero-time self-loop on `A`; `B` is a valid but unreachable node. -/
def gLoop : Graph := ⟨[("A", 1), ("B", 1)], [("A", [⟨"A", 0⟩])]⟩

/-- `A` has charge `0` and an outgoing edge, `B` has charge `5`. -/
def gC3 : Graph := ⟨[("A", 0), ("B", 5)], [("A", [⟨"B", 4⟩])]⟩

/-- A bank whose BIC is the literal string `"undefined"`, plus `B`; no edges. -/
def gU : Graph := ⟨[("undefined", 3), ("B", 5)], []⟩

/-- Two valid nodes, no edges at all. -/
def gNE : Graph := ⟨[("A", 1), ("B", 1)], []⟩

/-- The state of `dijkstraFastest` on `gPar` mid-way through relaxing the
edges of `A`: the first parallel edge has recorded distance `0` for `B`. -/
def stMid : FState := ⟨[("A", 0), ("B", 0)], [("B", "A")], [⟨"B", 0⟩]⟩

/-- The state of `dijkstraFastest` on `gLoop` after one loop iteration; the
iteration maps it to itself, so the loop never ends. -/
def stLoop : FState := ⟨[("A", 0)], [("A", "A")], [⟨"A", 0⟩]⟩

/-- One iteration of the loop on `gLoop` reproduces `stLoop`: the recorded
distance `0` of `A` is falsy, so the self-loop edge always re-pushes `(A, 0)`. -/
lemma loopF_gLoop_step (n : ℕ) :
    loopF gLoop "B" (n + 1) stLoop = loopF gLoop "B" n stLoop := by
  norm_num [loopF, popMinF, relaxAllF, relaxF, jsLtOrInf, jsGtQ, lookupL,
    updateL, adj, stLoop, gLoop]
  exact fun h => absurd h (by decide)

/-- The relaxation loop of `dijkstraFastest` on `gLoop` from `stLoop` is out
of fuel for every fuel bound: it never terminates. -/
lemma loopF_gLoop_stuck : ∀ n : ℕ, loopF gLoop "B" n stLoop = none
  | 0 => by norm_num [loopF, popMinF, stLoop]
  | n + 1 => by rw [loopF_gLoop_step]; exact loopF_gLoop_stuck n

/-- `dijkstraFastest` on `gLoop` from `A` to `B` is unfinished at every fuel
bound: the `while` loop of lines 89–102 runs forever on this input. -/
lemma gLoop_fastest_runs_forever (n : ℕ) :
    dijkstraFastest n gLoop "A" "B" = none := by
  cases n with
  | zero => norm_num [dijkstraFastest, loopF, popMinF, updateL]
  | succ m =>
      have h1 : loopF gLoop "B" (m + 1)
          ⟨updateL [] "A" 0, [], [⟨"A", 0⟩]⟩ = loopF gLoop "B" m stLoop := by
        norm_num [loopF, popMinF, relaxAllF, relaxF, jsLtOrInf, jsGtQ, lookupL,
          updateL, adj, stLoop, gLoop]
        exact fun h => absurd h (by decide)
      simp only [dijkstraFastest, h1, loopF_gLoop_stuck]

/-- C1.  On `gPar` (non-negative times, `B` reachable from `A`), the Fastest
operation returns weight `7`, yet the directed route `A → B` through the
graph's time-`0` edge has total edge-time `0`, and `7 ≤ 0` fails: the
returned weight is NOT less than or equal to the weight of every route.
The time-`0` route first records distance `0` for `B`, which line 96's
`distances[neighbor.to] || Infinity` then treats as absent, letting the
time-`7` edge overwrite it; the loop breaks on popping the stale `(B, 0)`
entry and returns `distances[B] = 7`. -/
theorem fastest_weight_exceeds_route_weight :
    dijkstraFastest 3 gPar "A" "B" = some (some ⟨["A", "B"], 7⟩) ∧
    Edge.mk "B" 0 ∈ adj gPar "A" ∧
    isRouteList gPar "A" "B" ["A", "B"] = true ∧
    ¬ ((7 : ℚ) ≤ 0) := by
  refine ⟨?_, by decide, by decide, by decide⟩
  norm_num [dijkstraFastest, loopF, popMinF, relaxAllF, relaxF, jsLtOrInf,
    jsGtQ, lookupL, updateL, adj, walkPath, gPar]
  decide

/-- C2.  On `gLoop` — finite, all times and charges non-negative, both `A`
and `B` valid nodes — the Fastest search never terminates: at every fuel
bound the relaxation loop is still running, because the zero-time self-loop
on `A` keeps re-pushing `(A, 0)` (a recorded distance of `0` is falsy in
line 96's `|| Infinity`, so the candidate `0 + 0` always wins). -/
theorem fastest_search_never_terminates (n : ℕ) :
    dijkstraFastest n gLoop "A" "B" = none :=
  gLoop_fastest_runs_forever n

/-- C4.  A concrete relaxation step of `dijkstraFastest` in which the target
`B` HAS a recorded distance (`0`), the candidate `0 + 7` is NOT strictly
smaller than it, and yet the edge updates the record — and increases it to
`7`.  The update condition of line 96 is therefore not "strictly smaller or
no record yet", and a recorded distance can increase during a run. -/
theorem relax_updates_despite_larger_candidate :
    lookupL stMid.distances "B" = some 0 ∧
    ¬ ((0 : ℚ) + 7 < 0) ∧
    lookupL (relaxF 0 "A" ⟨"B", 7⟩ stMid).distances "B" = some 7 := by
  refine ⟨by decide, by norm_num, ?_⟩
  norm_num [relaxF, jsLtOrInf, lookupL, updateL, stMid]
  decide

/-- C7.  Both parallel `A → B` edges (times 5 and 3) survive
`loadDataToMemory` in the adjacency list, in either load order, and the
relaxation loop considers both: the fastest search returns `3`, not `5`
and not `8`. -/
theorem parallel_edges_all_considered :
    loadLinks [⟨"A", "B", 5⟩, ⟨"A", "B", 3⟩] = [("A", [⟨"B", 5⟩, ⟨"B", 3⟩])] ∧
    loadLinks [⟨"A", "B", 3⟩, ⟨"A", "B", 5⟩] = [("A", [⟨"B", 3⟩, ⟨"B", 5⟩])] ∧
    dijkstraFastest 3 ⟨[("A", 1), ("B", 1)], loadLinks [⟨"A", "B", 5⟩, ⟨"A", "B", 3⟩]⟩
      "A" "B" = some (some ⟨["A", "B"], 3⟩) ∧
    dijkstraFastest 3 ⟨[("A", 1), ("B", 1)], loadLinks [⟨"A", "B", 3⟩, ⟨"A", "B", 5⟩]⟩
      "A" "B" = some (some ⟨["A", "B"], 3⟩) := by
  refine ⟨by decide, by decide, ?_, ?_⟩ <;>
    · norm_num [dijkstraFastest, loopF, popMinF, relaxAllF, relaxF, jsLtOrInf,
        jsGtQ, lookupL, updateL, adj, walkPath, loadLinks, pushLink]
      decide

/-- C3's counterexample.  `A` is in the spec's node set of `gC3` (it has a
charge entry, with charge `0`, and is an edge endpoint), so the claim says a
request naming it passes validation; but both endpoints reject it with
`InvalidNode`, because line 156's `!banks[fromBank]` treats the charge `0`
as falsy. -/
theorem present_node_rejected :
    "A" ∈ specNodeSet gC3 ∧
    fastestrouteHandler 5 gC3 (some "A") (some "B") = some ApiResponse.invalidNode ∧
    cheapestrouteHandler 5 gC3 (some "A") (some "B") = some ApiResponse.invalidNode := by
  refine ⟨by decide, ?_, ?_⟩ <;>
    norm_num [fastestrouteHandler, cheapestrouteHandler, truthy, bodyLookup,
      lookupL, gC3]

/-- C3 as amended.  The service fails with `InvalidNode` exactly when at
least one of the two endpoint fields has a falsy `banks` lookup — the field
is missing, the BIC has no charge entry (even if it occurs as an edge
endpoint), or its charge is `0`.  Membership in the spec's node set is not
what is checked. -/
theorem invalidNode_iff_falsy_charge (fuel : ℕ) (g : Graph) (f t : Option String) :
    (fastestrouteHandler fuel g f t = some ApiResponse.invalidNode ↔
      ¬(truthy (bodyLookup g f) = true ∧ truthy (bodyLookup g t) = true)) ∧
    (cheapestrouteHandler fuel g f t = some ApiResponse.invalidNode ↔
      ¬(truthy (bodyLookup g f) = true ∧ truthy (bodyLookup g t) = true)) := by
  constructor
  · unfold fastestrouteHandler
    by_cases hf : truthy (bodyLookup g f) = true <;>
      by_cases ht : truthy (bodyLookup g t) = true <;>
        simp [hf, ht]
    cases dijkstraFastest fuel g (f.getD "undefined") (t.getD "undefined") with
    | none => simp
    | some r => cases r <;> simp
  · unfold cheapestrouteHandler
    by_cases hf : truthy (bodyLookup g f) = true <;>
      by_cases ht : truthy (bodyLookup g t) = true <;>
        simp [hf, ht]
    cases dijkstraCheapest fuel g (f.getD "undefined") (t.getD "undefined") with
    | none => simp
    | some r => cases r <;> simp

/-- C9's counterexample.  With `fromBank` missing from the request body,
the service does NOT return `InvalidNode`: on `gU` the lookup
`banks[fromBank]` coerces the `undefined` key to the string `"undefined"`,
finds that bank's charge `3`, passes validation, invokes the engine, and
answers 404 `No path found`. -/
theorem missing_field_reaches_engine :
    fastestrouteHandler 2 gU none (some "B") = some ApiResponse.noPathFound := by
  norm_num [fastestrouteHandler, truthy, bodyLookup, lookupL, gU,
    dijkstraFastest, loopF, popMinF, relaxAllF, adj, updateL]
  decide

/-- C9 as amended.  A request with `fromBank` or `toBank` missing gets the
`InvalidNode` error — and, since this holds already at fuel `0`, without the
engine ever being consulted — PROVIDED the charge table gives no nonzero
charge to the literal BIC string `"undefined"` (JS coerces an `undefined`
property key to that string); otherwise the missing field can pass
validation. -/
theorem missing_field_invalid_node (fuel : ℕ) (g : Graph) (f t : Option String)
    (hmiss : f = none ∨ t = none)
    (hu : truthy (lookupL g.banks "undefined") = false) :
    fastestrouteHandler fuel g f t = some ApiResponse.invalidNode ∧
    cheapestrouteHandler fuel g f t = some ApiResponse.invalidNode := by
  have hlk : truthy (bodyLookup g f) = false ∨ truthy (bodyLookup g t) = false := by
    cases hmiss with
    | inl h => exact Or.inl (by rw [h]; exact hu)
    | inr h => exact Or.inr (by rw [h]; exact hu)
  cases hlk with
  | inl h => exact ⟨by simp [fastestrouteHandler, h], by simp [cheapestrouteHandler, h]⟩
  | inr h => exact ⟨by simp [fastestrouteHandler, h], by simp [cheapestrouteHandler, h]⟩

/-- Witness for `missing_field_invalid_node`: a request with a missing
`fromBank` against a store without an `"undefined"` bank is rejected at fuel
`0`, i.e. before the engine could do anything. -/
theorem missing_field_invalid_node_witness :
    fastestrouteHandler 0 gNE none (some "B") = some ApiResponse.invalidNode ∧
    cheapestrouteHandler 0 gNE none (some "B") = some ApiResponse.invalidNode :=
  missing_field_invalid_node 0 gNE none (some "B") (Or.inl rfl) (by decide)

/-- Any successful predecessor walk returns the JS array
`[cur, …, start].reverse()`: the accumulator, then the intermediate chain
headed by the walk's starting point `cur`, then `start`, reversed. -/
lemma walkPath_shape (start : String) :
    ∀ (n : ℕ) (preds : List (String × String)) (cur : String) (acc p : List String),
      walkPath start n preds cur acc = some p →
      ∃ mid : List String,
        p = ((acc ++ mid) ++ [start]).reverse ∧ (mid = [] → cur = start) ∧
          (mid ≠ [] → mid.head? = some cur)
  | 0, preds, cur, acc, p => by
      intro h
      simp only [walkPath] at h
      by_cases hcs : cur = start
      · rw [if_pos hcs] at h
        exact ⟨[], by simpa using h.symm, fun _ => hcs, fun hne => absurd rfl hne⟩
      · rw [if_neg hcs] at h
        cases h
  | m + 1, preds, cur, acc, p => by
      intro h
      simp only [walkPath] at h
      by_cases hcs : cur = start
      · rw [if_pos hcs] at h
        exact ⟨[], by simpa using h.symm, fun _ => hcs, fun hne => absurd rfl hne⟩
      · rw [if_neg hcs] at h
        obtain ⟨mid, hp, _, _⟩ :=
          walkPath_shape start m preds ((lookupL preds cur).getD "undefined")
            (acc ++ [cur]) p h
        refine ⟨cur :: mid, ?_, ?_, ?_⟩
        · rw [hp]; simp
        · intro hc; exact (List.cons_ne_nil _ _ hc).elim
        · intro _; rfl

/-- A successful predecessor walk started at `cur` with an empty accumulator
yields a nonempty path from `start` to `cur`. -/
lemma walkPath_endpoints (start : String) (n : ℕ) (preds : List (String × String))
    (cur : String) (p : List String) (h : walkPath start n preds cur [] = some p) :
    p ≠ [] ∧ p.head? = some start ∧ p.getLast? = some cur := by
  obtain ⟨mid, hp, hemp, hhead⟩ := walkPath_shape start n preds cur [] p h
  rw [List.nil_append] at hp
  subst hp
  refine ⟨by simp, ?_, ?_⟩
  · rw [List.head?_reverse, List.getLast?_concat]
  · rw [List.getLast?_reverse]
    by_cases hm : mid = []
    · subst hm
      simpa using (hemp rfl).symm
    · rw [List.head?_append_of_ne_nil mid hm]
      exact hhead hm

/-- C10.  Whenever either search returns a non-null `{path, …}` result, the
path is nonempty, starts at the requested start node and ends at the
requested end node — this is forced by the shape of the reconstruction loop
of lines 106–113 / 142–149 alone. -/
theorem returned_path_endpoints (fuel : ℕ) (g : Graph) (s dst : String) :
    (∀ r : FResult, dijkstraFastest fuel g s dst = some (some r) →
        r.path ≠ [] ∧ r.path.head? = some s ∧ r.path.getLast? = some dst) ∧
    (∀ r : CResult, dijkstraCheapest fuel g s dst = some (some r) →
        r.path ≠ [] ∧ r.path.head? = some s ∧ r.path.getLast? = some dst) := by
  constructor
  · intro r h
    unfold dijkstraFastest at h
    rcases hL : loopF g dst fuel ⟨updateL [] s 0, [], [⟨s, 0⟩]⟩ with _ | st
    · rw [hL] at h; cases h
    · rw [hL] at h; dsimp only at h
      rcases hd : lookupL st.distances dst with _ | d
      · rw [hd] at h; cases h
      · rw [hd] at h; dsimp only at h
        rcases hw : walkPath s fuel st.predecessors dst [] with _ | pth
        · rw [hw] at h; cases h
        · rw [hw] at h; dsimp only at h
          obtain rfl : (⟨pth, d⟩ : FResult) = r := by
            simpa using h
          exact walkPath_endpoints s fuel st.predecessors dst pth hw
  · intro r h
    unfold dijkstraCheapest at h
    rcases hL : loopC g dst fuel
        ⟨updateL [] s (lookupL g.banks s), [], [⟨s, lookupL g.banks s⟩]⟩ with _ | st
    · rw [hL] at h; cases h
    · rw [hL] at h; dsimp only at h
      rcases hd : lookupL st.distances dst with _ | c
      · rw [hd] at h; cases h
      · rw [hd] at h; dsimp only at h
        rcases hw : walkPath s fuel st.predecessors dst [] with _ | pth
        · rw [hw] at h; cases h
        · rw [hw] at h; dsimp only at h
          obtain rfl : (⟨pth, c⟩ : CResult) = r := by
            simpa using h
          exact walkPath_endpoints s fuel st.predecessors dst pth hw

/-- Witness for `returned_path_endpoints`: the degenerate run
`dijkstraFastest 1 gNE "A" "A"` returns `{path: ["A"], time: 0}`, and the
theorem yields its endpoint properties. -/
theorem returned_path_endpoints_witness :
    (["A"] : List String) ≠ [] ∧ (["A"] : List String).head? = some "A" ∧
      (["A"] : List String).getLast? = some "A" :=
  (returned_path_endpoints 1 gNE "A" "A").1 ⟨["A"], 0⟩ (by decide)

/-- C6.  For every graph and every node `s`, `Fastest(s, s)` pops `s` — which
equals the end node — on the first iteration, breaks before any relaxation,
and returns the single-node path `[s]` with weight `0`; `Cheapest(s, s)`
does the same and returns `[s]` with the `banks` lookup of `s` as its cost —
the charge of `s` (an `undefined` cost in the corner case of a node with no
charge entry, which the Query Service's validation never lets through). -/
theorem start_eq_end_degenerate (g : Graph) (s : String) (n : ℕ) :
    dijkstraFastest (n + 1) g s s = some (some ⟨[s], 0⟩) ∧
    dijkstraCheapest (n + 1) g s s = some (some ⟨[s], lookupL g.banks s⟩) := by
  constructor
  · simp [dijkstraFastest, loopF, popMinF, lookupL, updateL, walkPath]
  · simp [dijkstraCheapest, loopC, popMinC, lookupL, updateL, walkPath]

/-- Looking a key up in two adjacency lists with the same time-erased image
gives edge lists with the same targets. -/
lemma lookupL_stripTimes :
    ∀ (l1 l2 : List (String × List Edge)), stripTimes l1 = stripTimes l2 →
      ∀ x, (lookupL l1 x).map (List.map Edge.toBIC) =
        (lookupL l2 x).map (List.map Edge.toBIC)
  | [], [], _, _ => rfl
  | [], _ :: _, h, _ => by simp [stripTimes] at h
  | _ :: _, [], h, _ => by simp [stripTimes] at h
  | (k1, es1) :: l1, (k2, es2) :: l2, h, x => by
      simp only [stripTimes, List.map_cons, List.cons.injEq, Prod.mk.injEq] at h
      obtain ⟨⟨hk, hes⟩, ht⟩ := h
      subst hk
      by_cases hx : k1 = x
      · simp [lookupL, hx, hes]
      · simp only [lookupL, hx, if_neg, ite_false]
        exact lookupL_stripTimes l1 l2 ht x

/-- Two graphs whose adjacency lists differ only in edge times have the same
edge targets out of every node. -/
lemma adj_toBIC_eq (g1 g2 : Graph) (h : stripTimes g1.links = stripTimes g2.links)
    (x : String) : (adj g1 x).map Edge.toBIC = (adj g2 x).map Edge.toBIC := by
  have hx := lookupL_stripTimes g1.links g2.links h x
  unfold adj
  cases h1 : lookupL g1.links x <;> cases h2 : lookupL g2.links x <;>
    rw [h1, h2] at hx <;> simp_all

/-- The cheapest relaxation of one edge reads only the edge's target, never
its time. -/
lemma relaxC_toBIC (banks : List (String × ℚ)) (cd : Option ℚ) (cur : String)
    (e1 e2 : Edge) (h : e1.toBIC = e2.toBIC) (st : CState) :
    relaxC banks cd cur e1 st = relaxC banks cd cur e2 st := by
  unfold relaxC
  rw [h]

/-- The cheapest inner loop over two edge lists with the same targets is the
same state transformer. -/
lemma relaxAllC_toBIC (banks : List (String × ℚ)) (cd : Option ℚ) (cur : String) :
    ∀ (es1 es2 : List Edge), es1.map Edge.toBIC = es2.map Edge.toBIC →
      ∀ st, relaxAllC banks cd cur es1 st = relaxAllC banks cd cur es2 st
  | [], [], _, _ => rfl
  | [], _ :: _, h, _ => by simp at h
  | _ :: _, [], h, _ => by simp at h
  | e1 :: es1, e2 :: es2, h, st => by
      simp only [List.map_cons, List.cons.injEq] at h
      obtain ⟨he, hes⟩ := h
      simp only [relaxAllC]
      rw [relaxC_toBIC banks cd cur e1 e2 he st]
      exact relaxAllC_toBIC banks cd cur es1 es2 hes _

/-- The cheapest main loop only consults `banks` and the edge targets, so it
is identical on two graphs with equal charges and time-erased adjacency. -/
lemma loopC_strip (g1 g2 : Graph) (hb : g1.banks = g2.banks)
    (hl : stripTimes g1.links = stripTimes g2.links) (dst : String) :
    ∀ (n : ℕ) (st : CState), loopC g1 dst n st = loopC g2 dst n st
  | 0, st => rfl
  | n + 1, st => by
      simp only [loopC]
      cases popMinC st.pq with
      | none => rfl
      | some pr =>
          obtain ⟨cur, rest⟩ := pr
          by_cases hdst : cur.node = dst
          · simp [hdst]
          · simp only [hdst, ite_false, if_neg, not_false_iff]
            by_cases hstale : jsGtC cur.distance (lookupL st.distances cur.node) = true
            · simp only [hstale, ite_true]
              exact loopC_strip g1 g2 hb hl dst n _
            · simp only [Bool.not_eq_true] at hstale
              simp only [hstale, Bool.false_eq_true, ite_false]
              rw [hb, relaxAllC_toBIC g2.banks cur.distance cur.node
                    (adj g1 cur.node) (adj g2 cur.node) (adj_toBIC_eq g1 g2 hl cur.node)]
              exact loopC_strip g1 g2 hb hl dst n _

/-- C8.  The Cheapest operation never reads edge times: on two graphs with
the same charges and the same edges up to time values it returns the same
outcome — same path and cost, same "no path", or same non-termination — for
every start, end and fuel. -/
theorem cheapest_ignores_edge_times (g1 g2 : Graph) (hb : g1.banks = g2.banks)
    (hl : stripTimes g1.links = stripTimes g2.links) (fuel : ℕ) (s dst : String) :
    dijkstraCheapest fuel g1 s dst = dijkstraCheapest fuel g2 s dst := by
  unfold dijkstraCheapest
  rw [hb, loopC_strip g1 g2 hb hl dst fuel]

/-- Witness for `cheapest_ignores_edge_times`: two concrete graphs that agree
on charges and edge targets but give every edge different times produce the
same cheapest answer. -/
theorem cheapest_ignores_edge_times_witness :
    dijkstraCheapest 5 ⟨[("A", 1), ("B", 2), ("C", 1)],
        [("A", [⟨"B", 4⟩, ⟨"C", 10⟩]), ("B", [⟨"C", 1⟩])]⟩ "A" "C" =
      dijkstraCheapest 5 ⟨[("A", 1), ("B", 2), ("C", 1)],
        [("A", [⟨"B", 99⟩, ⟨"C", 1⟩]), ("B", [⟨"C", 77⟩])]⟩ "A" "C" :=
  cheapest_ignores_edge_times _ _ (by decide) (by decide) 5 "A" "C"

/-!  Route and lookup lemmas for the reachability invariant. -/

/-- `lookupL` after `updateL`: the updated key reads back the new value,
every other key is unchanged. -/
lemma lookupL_updateL {α : Type} :
    ∀ (l : List (String × α)) (k x : String) (v : α),
      lookupL (updateL l k v) x = if k = x then some v else lookupL l x
  | [], k, x, v => by simp [updateL, lookupL]
  | (k1, v1) :: rest, k, x, v => by
      by_cases hk : k1 = k
      · subst hk
        by_cases hx : k1 = x <;> simp [updateL, lookupL, hx]
      · simp only [updateL, hk, ite_false, if_neg, not_false_iff]
        by_cases hx : k1 = x
        · subst hx
          have hkx : ¬k = k1 := fun h => hk h.symm
          simp [lookupL, hkx]
        · simp [lookupL, hx, lookupL_updateL rest k x v]

/-- Appending an edge-connected node to a chain keeps it a chain. -/
lemma chainB_extend (g : Graph) (b : String) :
    ∀ (p : List String) (a : String), chainB g p = true → p.getLast? = some a →
      edgeToB g a b = true → chainB g (p ++ [b]) = true
  | [], _, _, hl, _ => by simp at hl
  | [x], a, _, hl, he => by
      simp only [List.getLast?_singleton, Option.some.injEq] at hl
      subst hl
      simp [chainB, he]
  | x :: y :: rest, a, hc, hl, he => by
      simp only [chainB, Bool.and_eq_true] at hc
      obtain ⟨hxy, hc2⟩ := hc
      rw [List.getLast?_cons_cons] at hl
      have hrec := chainB_extend g b (y :: rest) a hc2 hl he
      simp only [List.cons_append] at hrec ⊢
      simp [chainB, hxy, hrec]

/-- The one-node route makes every node reachable from itself. -/
lemma Reach_refl (g : Graph) (s : String) : Reach g s s :=
  ⟨[s], by simp [isRouteList, chainB]⟩

/-- Extending a route by one edge extends reachability. -/
lemma Reach_step (g : Graph) (s a b : String) (h : Reach g s a)
    (he : edgeToB g a b = true) : Reach g s b := by
  obtain ⟨p, hp⟩ := h
  simp only [isRouteList, Bool.and_eq_true, decide_eq_true_eq] at hp
  obtain ⟨⟨hh, hl⟩, hc⟩ := hp
  refine ⟨p ++ [b], ?_⟩
  simp only [isRouteList, Bool.and_eq_true, decide_eq_true_eq]
  refine ⟨⟨?_, ?_⟩, chainB_extend g b p a hc hl he⟩
  · rw [List.head?_append_of_ne_nil p (by intro hnil; rw [hnil] at hh; simp at hh)]
    exact hh
  · exact List.getLast?_concat p

/-- Every edge in a node's adjacency list witnesses `edgeToB`. -/
lemma edgeToB_of_mem (g : Graph) (a : String) (e : Edge) (h : e ∈ adj g a) :
    edgeToB g a e.toBIC = true := by
  simp only [edgeToB, List.any_eq_true]
  exact ⟨e, h, by simp⟩

/-- What `popMinF` returns comes from the queue: the popped entry is a queue
member and the remainder is a subset of the queue. -/
lemma popMinF_mem : ∀ (l : List FEntry) (m : FEntry) (rest : List FEntry),
    popMinF l = some (m, rest) → m ∈ l ∧ ∀ x ∈ rest, x ∈ l
  | [], _, _, h => by cases h
  | e :: es, m, rest, h => by
      simp only [popMinF] at h
      cases hrec : popMinF es with
      | none =>
          rw [hrec] at h
          dsimp only at h
          simp only [Option.some.injEq, Prod.mk.injEq] at h
          obtain ⟨h1, h2⟩ := h
          subst h1; subst h2
          exact ⟨List.mem_cons_self _ _, by simp⟩
      | some pr =>
          obtain ⟨m2, rest2⟩ := pr
          rw [hrec] at h
          dsimp only at h
          have ih := popMinF_mem es m2 rest2 hrec
          by_cases hle : e.distance ≤ m2.distance
          · rw [if_pos hle] at h
            simp only [Option.some.injEq, Prod.mk.injEq] at h
            obtain ⟨h1, h2⟩ := h
            subst h1; subst h2
            exact ⟨List.mem_cons_self _ _, fun x hx => List.mem_cons_of_mem _ hx⟩
          · rw [if_neg hle] at h
            simp only [Option.some.injEq, Prod.mk.injEq] at h
            obtain ⟨h1, h2⟩ := h
            subst h1; subst h2
            refine ⟨List.mem_cons_of_mem e ih.1, fun x hx => ?_⟩
            rcases List.mem_cons.mp hx with rfl | hx2
            · exact List.mem_cons_self x es
            · exact List.mem_cons_of_mem e (ih.2 x hx2)

/-- Same for the cheapest queue. -/
lemma popMinC_mem : ∀ (l : List CEntry) (m : CEntry) (rest : List CEntry),
    popMinC l = some (m, rest) → m ∈ l ∧ ∀ x ∈ rest, x ∈ l
  | [], _, _, h => by cases h
  | e :: es, m, rest, h => by
      simp only [popMinC] at h
      cases hrec : popMinC es with
      | none =>
          rw [hrec] at h
          dsimp only at h
          simp only [Option.some.injEq, Prod.mk.injEq] at h
          obtain ⟨h1, h2⟩ := h
          subst h1; subst h2
          exact ⟨List.mem_cons_self _ _, by simp⟩
      | some pr =>
          obtain ⟨m2, rest2⟩ := pr
          rw [hrec] at h
          dsimp only at h
          have ih := popMinC_mem es m2 rest2 hrec
          by_cases hle : leC e.distance m2.distance = true
          · rw [if_pos hle] at h
            simp only [Option.some.injEq, Prod.mk.injEq] at h
            obtain ⟨h1, h2⟩ := h
            subst h1; subst h2
            exact ⟨List.mem_cons_self _ _, fun x hx => List.mem_cons_of_mem _ hx⟩
          · rw [if_neg hle] at h
            simp only [Option.some.injEq, Prod.mk.injEq] at h
            obtain ⟨h1, h2⟩ := h
            subst h1; subst h2
            refine ⟨List.mem_cons_of_mem e ih.1, fun x hx => ?_⟩
            rcases List.mem_cons.mp hx with rfl | hx2
            · exact List.mem_cons_self x es
            · exact List.mem_cons_of_mem e (ih.2 x hx2)

/-- Invariant of the fastest search: every node with a recorded distance, and
every queued node, is reachable from the start by a directed route. -/
def InvF (g : Graph) (s : String) (st : FState) : Prop :=
  (∀ x v, lookupL st.distances x = some v → Reach g s x) ∧
    ∀ en ∈ st.pq, Reach g s en.node

/-- Invariant of the cheapest search, same statement. -/
def InvC (g : Graph) (s : String) (st : CState) : Prop :=
  (∀ x v, lookupL st.distances x = some v → Reach g s x) ∧
    ∀ en ∈ st.pq, Reach g s en.node

/-- Relaxing one edge from a reachable popped node preserves `InvF`: the only
key it can write is the edge's target, which is then reachable too. -/
lemma relaxF_inv (g : Graph) (s : String) (cd : ℚ) (cur : String) (e : Edge)
    (st : FState) (hcur : Reach g s cur) (he : edgeToB g cur e.toBIC = true)
    (hst : InvF g s st) : InvF g s (relaxF cd cur e st) := by
  unfold relaxF
  by_cases hc : jsLtOrInf (cd + e.time) (lookupL st.distances e.toBIC) = true
  · rw [if_pos hc]
    constructor
    · intro x v hx
      rw [lookupL_updateL] at hx
      by_cases hex : e.toBIC = x
      · subst hex
        exact Reach_step g s cur e.toBIC hcur he
      · rw [if_neg hex] at hx
        exact hst.1 x v hx
    · intro en hen
      rcases List.mem_append.mp hen with hen2 | hen2
      · exact hst.2 en hen2
      · rcases List.mem_singleton.mp hen2 with rfl
        exact Reach_step g s cur e.toBIC hcur he
  · rw [if_neg hc]
    exact hst

/-- `relaxAllC`'s counterpart of `relaxF_inv`. -/
lemma relaxC_inv (g : Graph) (s : String) (cd : Option ℚ) (cur : String) (e : Edge)
    (st : CState) (hcur : Reach g s cur) (he : edgeToB g cur e.toBIC = true)
    (hst : InvC g s st) : InvC g s (relaxC g.banks cd cur e st) := by
  unfold relaxC
  by_cases hc : jsLtOrInfC (jsAdd cd (lookupL g.banks e.toBIC))
      (lookupL st.distances e.toBIC) = true
  · rw [if_pos hc]
    constructor
    · intro x v hx
      rw [lookupL_updateL] at hx
      by_cases hex : e.toBIC = x
      · subst hex
        exact Reach_step g s cur e.toBIC hcur he
      · rw [if_neg hex] at hx
        exact hst.1 x v hx
    · intro en hen
      rcases List.mem_append.mp hen with hen2 | hen2
      · exact hst.2 en hen2
      · rcases List.mem_singleton.mp hen2 with rfl
        exact Reach_step g s cur e.toBIC hcur he
  · rw [if_neg hc]
    exact hst

/-- The inner `for` loop of the fastest search preserves the invariant when
every relaxed edge really is an outgoing edge of the popped node. -/
lemma relaxAllF_inv (g : Graph) (s : String) (cd : ℚ) (cur : String)
    (hcur : Reach g s cur) :
    ∀ (es : List Edge), (∀ e ∈ es, edgeToB g cur e.toBIC = true) →
      ∀ st : FState, InvF g s st → InvF g s (relaxAllF cd cur es st)
  | [], _, _, hst => hst
  | e :: es, hes, st, hst =>
      relaxAllF_inv g s cd cur hcur es
        (fun e2 he2 => hes e2 (List.mem_cons_of_mem e he2))
        (relaxF cd cur e st)
        (relaxF_inv g s cd cur e st hcur (hes e (List.mem_cons_self e es)) hst)

/-- Same for the cheapest inner loop. -/
lemma relaxAllC_inv (g : Graph) (s : String) (cd : Option ℚ) (cur : String)
    (hcur : Reach g s cur) :
    ∀ (es : List Edge), (∀ e ∈ es, edgeToB g cur e.toBIC = true) →
      ∀ st : CState, InvC g s st → InvC g s (relaxAllC g.banks cd cur es st)
  | [], _, _, hst => hst
  | e :: es, hes, st, hst =>
      relaxAllC_inv g s cd cur hcur es
        (fun e2 he2 => hes e2 (List.mem_cons_of_mem e he2))
        (relaxC g.banks cd cur e st)
        (relaxC_inv g s cd cur e st hcur (hes e (List.mem_cons_self e es)) hst)

/-- Whenever the fastest main loop terminates, the final state still satisfies
the reachability invariant. -/
lemma loopF_inv (g : Graph) (s dst : String) :
    ∀ (n : ℕ) (st st' : FState), InvF g s st → loopF g dst n st = some st' →
      InvF g s st'
  | 0, st, st', hst, h => by
      simp only [loopF] at h
      cases hp : popMinF st.pq with
      | none => rw [hp] at h; injection h with h; subst h; exact hst
      | some pr => rw [hp] at h; cases h
  | n + 1, st, st', hst, h => by
      simp only [loopF] at h
      cases hp : popMinF st.pq with
      | none => rw [hp] at h; injection h with h; subst h; exact hst
      | some pr =>
          obtain ⟨cur, rest⟩ := pr
          rw [hp] at h
          dsimp only at h
          have hmem := popMinF_mem st.pq cur rest hp
          have hrest : InvF g s { st with pq := rest } :=
            ⟨hst.1, fun en hen => hst.2 en (hmem.2 en hen)⟩
          by_cases hdst : cur.node = dst
          · rw [if_pos hdst] at h
            injection h with h; subst h
            exact hrest
          · rw [if_neg hdst] at h
            by_cases hstale : jsGtQ cur.distance (lookupL st.distances cur.node) = true
            · rw [if_pos hstale] at h
              exact loopF_inv g s dst n _ st' hrest h
            · rw [if_neg hstale] at h
              have hcur : Reach g s cur.node := hst.2 cur hmem.1
              exact loopF_inv g s dst n _ st'
                (relaxAllF_inv g s cur.distance cur.node hcur (adj g cur.node)
                  (fun e he => edgeToB_of_mem g cur.node e he) _ hrest) h

/-- Same for the cheapest main loop. -/
lemma loopC_inv (g : Graph) (s dst : String) :
    ∀ (n : ℕ) (st st' : CState), InvC g s st → loopC g dst n st = some st' →
      InvC g s st'
  | 0, st, st', hst, h => by
      simp only [loopC] at h
      cases hp : popMinC st.pq with
      | none => rw [hp] at h; injection h with h; subst h; exact hst
      | some pr => rw [hp] at h; cases h
  | n + 1, st, st', hst, h => by
      simp only [loopC] at h
      cases hp : popMinC st.pq with
      | none => rw [hp] at h; injection h with h; subst h; exact hst
      | some pr =>
          obtain ⟨cur, rest⟩ := pr
          rw [hp] at h
          dsimp only at h
          have hmem := popMinC_mem st.pq cur rest hp
          have hrest : InvC g s { st with pq := rest } :=
            ⟨hst.1, fun en hen => hst.2 en (hmem.2 en hen)⟩
          by_cases hdst : cur.node = dst
          · rw [if_pos hdst] at h
            injection h with h; subst h
            exact hrest
          · rw [if_neg hdst] at h
            by_cases hstale : jsGtC cur.distance (lookupL st.distances cur.node) = true
            · rw [if_pos hstale] at h
              exact loopC_inv g s dst n _ st' hrest h
            · rw [if_neg hstale] at h
              have hcur : Reach g s cur.node := hst.2 cur hmem.1
              exact loopC_inv g s dst n _ st'
                (relaxAllC_inv g s cur.distance cur.node hcur (adj g cur.node)
                  (fun e he => edgeToB_of_mem g cur.node e he) _ hrest) h

/-- When no directed route leads from `s` to `dst`, a terminating fastest run
returns the JS `null`; the only other possibility is running out of fuel. -/
lemma dijkstraFastest_no_route (g : Graph) (s dst : String)
    (hnr : ∀ p, isRouteList g s dst p = false) (n : ℕ) :
    dijkstraFastest n g s dst = none ∨ dijkstraFastest n g s dst = some none := by
  have hInv0 : InvF g s ⟨updateL [] s 0, [], [⟨s, 0⟩]⟩ := by
    constructor
    · intro x v hx
      simp only [updateL, lookupL] at hx
      by_cases hsx : s = x
      · subst hsx; exact Reach_refl g s
      · rw [if_neg hsx] at hx; cases hx
    · intro en hen
      rcases List.mem_singleton.mp hen with rfl
      exact Reach_refl g s
  unfold dijkstraFastest
  cases hL : loopF g dst n ⟨updateL [] s 0, [], [⟨s, 0⟩]⟩ with
  | none => exact Or.inl rfl
  | some st =>
      have hInv := loopF_inv g s dst n _ st hInv0 hL
      cases hd : lookupL st.distances dst with
      | none =>
          right
          dsimp only
          rw [hd]
      | some d =>
          obtain ⟨p, hp⟩ := hInv.1 dst d hd
          rw [hnr p] at hp
          cases hp

/-- The cheapest counterpart of `dijkstraFastest_no_route`. -/
lemma dijkstraCheapest_no_route (g : Graph) (s dst : String)
    (hnr : ∀ p, isRouteList g s dst p = false) (n : ℕ) :
    dijkstraCheapest n g s dst = none ∨ dijkstraCheapest n g s dst = some none := by
  have hInv0 : InvC g s
      ⟨updateL [] s (lookupL g.banks s), [], [⟨s, lookupL g.banks s⟩]⟩ := by
    constructor
    · intro x v hx
      simp only [updateL, lookupL] at hx
      by_cases hsx : s = x
      · subst hsx; exact Reach_refl g s
      · rw [if_neg hsx] at hx; cases hx
    · intro en hen
      rcases List.mem_singleton.mp hen with rfl
      exact Reach_refl g s
  unfold dijkstraCheapest
  cases hL : loopC g dst n
      ⟨updateL [] s (lookupL g.banks s), [], [⟨s, lookupL g.banks s⟩]⟩ with
  | none => exact Or.inl rfl
  | some st =>
      have hInv := loopC_inv g s dst n _ st hInv0 hL
      cases hd : lookupL st.distances dst with
      | none =>
          right
          dsimp only
          rw [hd]
      | some c =>
          obtain ⟨p, hp⟩ := hInv.1 dst c hd
          rw [hnr p] at hp
          cases hp

/-- C5 as amended.  When no directed route from `s` to `dst` exists, both
searches, WHENEVER THEY TERMINATE, report the "no path" outcome (the JS
`null`, surfaced as 404) — never a crash and never a partial path; the
amendment is needed because the search need not terminate (see the
counterexample). -/
theorem no_route_terminating_run_reports_no_path (g : Graph) (s dst : String)
    (hnr : ∀ p, isRouteList g s dst p = false) (n : ℕ) :
    (dijkstraFastest n g s dst = none ∨ dijkstraFastest n g s dst = some none) ∧
    (dijkstraCheapest n g s dst = none ∨ dijkstraCheapest n g s dst = some none) :=
  ⟨dijkstraFastest_no_route g s dst hnr n, dijkstraCheapest_no_route g s dst hnr n⟩

/-- Every chain of `gLoop` that starts at `A` stays at `A`: the only edge is
the self-loop. -/
lemma gLoop_chain_all_A : ∀ (p : List String) (x : String),
    chainB gLoop (x :: p) = true → x = "A" → (x :: p).getLast? = some "A"
  | [], x, _, hx => by subst hx; rfl
  | y :: rest, x, hc, hx => by
      subst hx
      simp only [chainB, Bool.and_eq_true] at hc
      obtain ⟨hxy, hc2⟩ := hc
      have hy : y = "A" := by
        simp [edgeToB, adj, gLoop, lookupL] at hxy
        exact hxy.symm
      rw [List.getLast?_cons_cons]
      exact gLoop_chain_all_A rest y hc2 hy

/-- `gLoop` has no directed route from `A` to `B`. -/
lemma gLoop_no_route : ∀ p, isRouteList gLoop "A" "B" p = false := by
  intro p
  cases p with
  | nil => rfl
  | cons x rest =>
      by_cases hx : x = "A"
      · subst hx
        by_cases hc : chainB gLoop ("A" :: rest) = true
        · have hlast := gLoop_chain_all_A rest "A" hc rfl
          simp [isRouteList, hlast]
        · simp only [Bool.not_eq_true] at hc
          simp [isRouteList, hc]
      · simp [isRouteList, hx]

/-- C5's counterexample.  On `gLoop`, `B` is a valid node with no directed
route from `A`, yet the Fastest operation never reports the "no path"
outcome: at every fuel bound the search is still running (it never returns
at all), so the claim's unconditional "both operations report no path" is
false. -/
theorem no_path_never_reported_on_zero_cycle :
    (∀ p, isRouteList gLoop "A" "B" p = false) ∧
    ∀ n, dijkstraFastest n gLoop "A" "B" ≠ some none :=
  ⟨gLoop_no_route, fun n h => by rw [gLoop_fastest_runs_forever n] at h; cases h⟩

/-- Witness for `no_route_terminating_run_reports_no_path` on the edgeless
graph `gNE`, where `B` is valid but unreachable from `A`. -/
theorem no_route_reports_witness :
    (dijkstraFastest 2 gNE "A" "B" = none ∨ dijkstraFastest 2 gNE "A" "B" = some none) ∧
    (dijkstraCheapest 2 gNE "A" "B" = none ∨ dijkstraCheapest 2 gNE "A" "B" = some none) :=
  no_route_terminating_run_reports_no_path gNE "A" "B"
    (by
      intro p
      cases p with
      | nil => rfl
      | cons x rest =>
          cases rest with
          | nil =>
              by_cases hx : x = "A"
              · subst hx; simp [isRouteList]
              · simp [isRouteList, hx]
          | cons y rest2 => simp [isRouteList, chainB, edgeToB, adj, gNE, lookupL])
    2

end HCLHack
